import Mathlib

/-!
Verification of go-mysql-backup: strategy decision and single-file dump plan.

A shallow embedding of `src/main.go`.

* Go strings are modelled as `List Char` (the sequence of their code points).
* Go `int` is modelled as `Int`, with the 64-bit two's complement wrap-around
  made explicit wherever the source does arithmetic (`wrapInt`).
* Console output through `printMessage` is modelled as a list of
  `(message, level)` pairs in the order of the calls.
-/

namespace GoMysqlBackup

/-- A Go string, as the list of its characters. -/
abbrev Str := List Char

/-! ## Machine integers -/

/-- Reduction of a mathematical integer to the Go `int` range of a 64-bit
platform, `[-2^63, 2^63)`, as two's complement arithmetic does. -/
def wrapInt (x : Int) : Int := (x + 2 ^ 63) % 2 ^ 64 - 2 ^ 63

/-- The largest value of a Go `int` on a 64-bit platform. -/
def maxInt : Int := 2 ^ 63 - 1

/-! ## Data model (`src/main.go`, lines 16-50) -/

/-- Message level `Info`. -/
def Info : Nat := 1

/-- Message level `Warning`. -/
def Warning : Nat := 2

/-- Message level `Error`. -/
def Error : Nat := 3

/-- The `Table` struct. -/
structure Table where
  TableName : Str
  RowCount : Int
deriving DecidableEq

/-- The constructor `NewTable`. -/
def NewTable (tableName : Str) (rowCount : Int) : Table :=
  { TableName := tableName, RowCount := rowCount }

/-- The function `getTotalRowCount`: the loop `result += table.RowCount` over the slice,
starting from `result := 0`; each addition is a Go `int` addition. -/
def getTotalRowCount (tables : List Table) : Int :=
  tables.foldl (fun result table => wrapInt (result + table.RowCount)) 0

/-- The mathematical sum of the `RowCount` fields. -/
def rowCountSum (tables : List Table) : Int :=
  (tables.map (fun t => t.RowCount)).sum

/-- Calendar date of a Go `time.Time` (in its location): the only part of the
value that `Format("2006-01-02")` reads. -/
structure Time where
  year : Int
  month : Nat
  day : Nat
deriving DecidableEq

/-- A date as `time.Time` yields it: month 1..12 and day 1..31. -/
def Time.valid (t : Time) : Prop := 1 ≤ t.month ∧ t.month ≤ 12 ∧ 1 ≤ t.day ∧ t.day ≤ 31

instance (t : Time) : Decidable t.valid := by
  unfold Time.valid; infer_instance

/-- The `Options` struct. -/
structure Options where
  HostName : Str
  Bind : Str
  UserName : Str
  Password : Str
  Database : Str
  DatabaseRowCountTreshold : Int
  TableRowCountTreshold : Int
  BatchSize : Int
  ForceSplit : Bool
  MySQLDumpPath : Str
  OutputDirectory : Str
  ExecutionStartDate : Time
  DailyRotation : Int
  WeeklyRotation : Int
  MonthlyRotation : Int
deriving DecidableEq

/-! ## Go standard library functions used by the source -/

/-- The byte `'0' + d`. -/
def digitChar (d : Nat) : Char := Char.ofNat (48 + d)

/-- The digit loop of `appendInt` in package `time` ("assemble decimal in
reverse order"): least significant digit first. The first argument bounds the
number of iterations. -/
def decimalRev : Nat → Nat → Str
  | 0, _ => []
  | fuel + 1, u =>
    if u < 10 then [digitChar u] else digitChar (u % 10) :: decimalRev fuel (u / 10)

/-- Decimal form of a natural number. -/
def decimal (u : Nat) : Str := (decimalRev (u + 1) u).reverse

/-- The function `appendInt(b, x, width)` of package `time`: appends the decimal form of
`x` to `b`, after a `-` when `x` is negative, padded with leading zeros to
`width` digits. -/
def appendInt (b : Str) (x : Int) (width : Nat) : Str :=
  let b1 := if x < 0 then b ++ ['-'] else b
  let ds := decimal x.natAbs
  b1 ++ List.replicate (width - ds.length) '0' ++ ds

/-- The call `t.Format("2006-01-02")`: four-digit year, two-digit month, two-digit
day, separated by hyphens. -/
def formatDate (t : Time) : Str :=
  appendInt (appendInt (appendInt [] t.year 4 ++ ['-']) (t.month : Int) 2 ++ ['-']) (t.day : Int) 2

/-- The replacement loop of `strings.Replace(s, old, new, -1)` for a
non-empty `old`: scans `s` from the left, replacing each non-overlapping
occurrence of `old`. The first argument bounds the number of iterations. -/
def replaceLoop (old new : Str) : Nat → Str → Str
  | 0, s => s
  | _ + 1, [] => []
  | fuel + 1, c :: t =>
    if old.isPrefixOf (c :: t) then new ++ replaceLoop old new fuel ((c :: t).drop old.length)
    else c :: replaceLoop old new fuel t

/-- The call `strings.Replace(s, old, new, -1)`. An empty `old` matches before every
character and at the end of the string. -/
def stringsReplaceAll (s old new : Str) : Str :=
  if old = new then s
  else if old = [] then new ++ s.flatMap (fun c => c :: new)
  else replaceLoop old new s.length s

/-- The function `strings.Join(elems, sep)`. -/
def stringsJoin (elems : List Str) (sep : Str) : Str := sep.intercalate elems

/-- The inner loop of the `..` case of `path.Clean`: starting from index `w`,
steps back while `w > dotdot` and the byte at `w` is not a slash. -/
def backtrackLoop (buf : Str) (dotdot : Nat) : Nat → Nat
  | 0 => 0
  | w + 1 => if dotdot < w + 1 ∧ buf.getD (w + 1) ' ' ≠ '/' then backtrackLoop buf dotdot w else w + 1

/-- The main loop of `path.Clean`. `rest` is the unread part of the path
(`path[r:]`), `out` the bytes written so far (`out.w` is its length) and
`dotdot` the index where `..` must stop. The first argument bounds the number
of iterations. -/
def cleanLoop (rooted : Bool) : Nat → Str → Str → Nat → Str
  | 0, _, out, _ => out
  | _ + 1, [], out, _ => out
  | fuel + 1, c :: t, out, dotdot =>
    if c = '/' then
      -- empty path element
      cleanLoop rooted fuel t out dotdot
    else if c = '.' ∧ (t = [] ∨ t.head? = some '/') then
      -- . element
      cleanLoop rooted fuel t out dotdot
    else if c = '.' ∧ t.head? = some '.' ∧ (t.tail = [] ∨ t.tail.head? = some '/') then
      -- .. element: remove to last /
      if dotdot < out.length then
        cleanLoop rooted fuel t.tail (out.take (backtrackLoop out dotdot (out.length - 1))) dotdot
      else if !rooted then
        let out1 := if 0 < out.length then out ++ ['/'] else out
        let out2 := out1 ++ ['.', '.']
        cleanLoop rooted fuel t.tail out2 out2.length
      else
        cleanLoop rooted fuel t.tail out dotdot
    else
      -- real path element: add slash if needed, copy element
      let out1 :=
        if (rooted && out.length != 1) || (!rooted && out.length != 0) then out ++ ['/'] else out
      cleanLoop rooted fuel ((c :: t).dropWhile (fun x => x != '/'))
        (out1 ++ (c :: t).takeWhile (fun x => x != '/')) dotdot

/-- The function `path.Clean`. -/
def Clean (path : Str) : Str :=
  if path = [] then ['.']
  else
    let rooted : Bool := path.head? == some '/'
    let out :=
      if rooted then cleanLoop rooted path.length path.tail ['/'] 1
      else cleanLoop rooted path.length path [] 0
    if out.length = 0 then ['.'] else out

/-- The concatenation loop of `path.Join`: non-empty elements separated by
slashes (leading empty elements are skipped). -/
def joinBuf (elem : List Str) : Str :=
  elem.foldl
    (fun buf e =>
      if 0 < buf.length ∨ e ≠ [] then (if 0 < buf.length then buf ++ ['/'] else buf) ++ e
      else buf)
    []

/-- The function `path.Join`. -/
def Join (elem : List Str) : Str :=
  if (elem.map List.length).sum = 0 then [] else Clean (joinBuf elem)

/-- The verb `%t` of `fmt.Sprintf`. -/
def fmtBool (b : Bool) : Str := if b then "true".toList else "false".toList

/-- The verb `%d` of `fmt.Sprintf` on an `int`. -/
def fmtInt (x : Int) : Str := appendInt [] x 0

/-! ## The program (`src/main.go`, lines 54-177) -/

/-- What a run of a function of the program produces: the calls of
`printMessage` in order, as `(message, level)`, and the argument lists built
for the dump tool, one per dump invocation, in order. -/
structure Output where
  messages : List (Str × Nat)
  invocations : List (List Str)
deriving DecidableEq

/-- The local `timestamp` of `generateSingleFileDataBackup` (line 167). -/
def timestamp (options : Options) : Str :=
  stringsReplaceAll
    (stringsReplaceAll (formatDate options.ExecutionStartDate) "-".toList "".toList)
    ":".toList "".toList

/-- The local `filename` of `generateSingleFileDataBackup` (line 168).
`timeNow` is the package-level variable `timeNow`, set once at process
start. -/
def filename (timeNow : Time) (options : Options) : Str :=
  Join [options.OutputDirectory, "daily".toList, formatDate timeNow,
    options.Database ++ "-".toList ++ formatDate options.ExecutionStartDate,
    options.Database ++ "_".toList ++ "DATA".toList ++ "_".toList ++ timestamp options
      ++ ".sql".toList]

/-- The slice `args` of `generateSingleFileDataBackup` after the last
`append` (lines 158-172). -/
def singleFileArgs (timeNow : Time) (options : Options) : List Str :=
  let args : List Str := []
  let args := args ++ ["-h".toList ++ options.HostName]
  let args := args ++ ["-u".toList ++ options.UserName]
  let args := args ++ ["-p".toList ++ options.Password]
  let args := args ++ ["--no-create-db".toList]
  let args := args ++ ["--skip-triggers".toList]
  let args := args ++ ["--no-create-info".toList]
  let args := args ++ ["-r".toList ++ filename timeNow options]
  let args := args ++ [options.Database]
  args

/-- The function `generateSingleFileDataBackup`: two `printMessage` calls at level `Info`
and one argument list for the dump tool. The `os.Mkdir` of the parent
directory, whose result the source discards, and the closing
`fmt.Println(args)`, which does not go through `printMessage`, are left out. -/
def generateSingleFileDataBackup (timeNow : Time) (options : Options) : Output :=
  let args := singleFileArgs timeNow options
  { messages :=
      [("Generating single file data backup : ".toList ++ options.Database, Info),
       ("mysqldump is being executed with parameters : ".toList ++ stringsJoin args " ".toList,
         Info)],
    invocations := [args] }

/-- The condition of the first `if` of the strategy chain (line 98). -/
def condition1 (forceSplit : Bool) (totalRowCount threshold : Int) : Bool :=
  !forceSplit && decide (totalRowCount ≤ threshold)

/-- The condition of the first `else if` (line 104). -/
def condition2 (forceSplit : Bool) (totalRowCount threshold : Int) : Bool :=
  forceSplit && decide (totalRowCount ≤ threshold)

/-- The condition of the second `else if` (line 109). -/
def condition3 (_forceSplit : Bool) (totalRowCount threshold : Int) : Bool :=
  decide (totalRowCount > threshold)

/-- The branches of the strategy chain of `main`. -/
inductive Branch where
  | singleFile
  | splitSchemaData
  | batched
deriving DecidableEq

/-- The `if` / `else if` chain of `main` (lines 98-111): the branch entered,
or `none` when the chain falls through. -/
def strategyBranch (forceSplit : Bool) (totalRowCount threshold : Int) : Option Branch :=
  if condition1 forceSplit totalRowCount threshold then some Branch.singleFile
  else if condition2 forceSplit totalRowCount threshold then some Branch.splitSchemaData
  else if condition3 forceSplit totalRowCount threshold then some Branch.batched
  else none

/-- The message logged on entering a branch (lines 102, 108, 110). -/
def conditionMessage (n : Str) (rel : Str) (options : Options) (totalRowCount : Int) : Str :=
  "Condition:".toList ++ n ++ " options.ForceSplit (".toList ++ fmtBool options.ForceSplit
    ++ ") && totalRowCount (".toList ++ fmtInt totalRowCount ++ ") ".toList ++ rel
    ++ " options.DatabaseRowCountTreshold (".toList ++ fmtInt options.DatabaseRowCountTreshold
    ++ ")".toList

/-- The part of `main` after the table list is retrieved (lines 95-111):
computes the total row count and runs the branch chosen by the strategy
chain. The options and the table list come from lines 56-93 (option literal,
working directory, database query) and are parameters here. -/
def mainStrategy (timeNow : Time) (options : Options) (tableList : List Table) : Output :=
  let totalRowCount := getTotalRowCount tableList
  match strategyBranch options.ForceSplit totalRowCount options.DatabaseRowCountTreshold with
  | some Branch.singleFile =>
    let r := generateSingleFileDataBackup timeNow options
    { messages := (conditionMessage "1".toList "<=".toList options totalRowCount, Info) :: r.messages,
      invocations := r.invocations }
  | some Branch.splitSchemaData =>
    { messages := [(conditionMessage "2".toList "<=".toList options totalRowCount, Info)],
      invocations := [] }
  | some Branch.batched =>
    { messages := [(conditionMessage "3".toList ">".toList options totalRowCount, Info)],
      invocations := [] }
  | none => { messages := [], invocations := [] }

/-- The options literal of `main` (lines 56-72), with the output directory
and the process start time as parameters. -/
def mainOptions (outputDirectory : Str) (timeNow : Time) : Options :=
  { HostName := "localhost".toList,
    Bind := "3306".toList,
    UserName := "admin".toList,
    Password := "password".toList,
    Database := "database-name".toList,
    DatabaseRowCountTreshold := 10000000,
    TableRowCountTreshold := 5000000,
    BatchSize := 1000000,
    ForceSplit := false,
    MySQLDumpPath := "".toList,
    OutputDirectory := outputDirectory,
    ExecutionStartDate := timeNow,
    DailyRotation := 5,
    WeeklyRotation := 2,
    MonthlyRotation := 1 }


/-! ## Definitions used to state the properties -/

/-- The messages of an output logged at level `Info` or `Warning`. -/
def infoWarningMessages (o : Output) : List Str :=
  (o.messages.filter (fun m => m.2 = Info ∨ m.2 = Warning)).map (fun m => m.1)

/-- Ceiling of `rowCount / batchSize`. -/
def ceilDiv (rowCount batchSize : Int) : Int := (rowCount + batchSize - 1) / batchSize

/-- The loop of `path.Clean` run on `rest` with as many iterations allowed as
`rest` has characters. -/
def cleanRun (rooted : Bool) (rest out : Str) (dotdot : Nat) : Str :=
  cleanLoop rooted rest.length rest out dotdot

/-- A path element that `path.Clean` copies: not empty, without a slash, and
neither `.` nor `..`. -/
def isElem (e : Str) : Prop := e ≠ [] ∧ '/' ∉ e ∧ e ≠ ['.'] ∧ e ≠ ['.', '.']

/-- The call `t.Format("20060102")`: the date as `YYYYMMDD`. -/
def formatCompact (t : Time) : Str :=
  appendInt (appendInt (appendInt [] t.year 4) (t.month : Int) 2) (t.day : Int) 2

/-- The output path with both date components taken from the execution date
of the options: `<outputRoot>/daily/<D>/<database>-<D>/<database>_DATA_<C>.sql`. -/
def executionDatePath (options : Options) : Str :=
  options.OutputDirectory ++ "/daily/".toList ++ formatDate options.ExecutionStartDate ++
    "/".toList ++ options.Database ++ "-".toList ++ formatDate options.ExecutionStartDate ++
    "/".toList ++ options.Database ++ "_DATA_".toList ++
    formatCompact options.ExecutionStartDate ++ ".sql".toList

/-! ## Strategy decision -/

/-- C1: for every total row count `T`, threshold `D` and `forceSplit` flag,
the chain of `main` enters the single-file branch iff `T ≤ D` and `forceSplit`
is false, the split branch iff `T ≤ D` and `forceSplit` is true, and the
batched branch iff `T > D`; a tie `T = D` is never batched. -/
theorem strategyBranch_iff (forceSplit : Bool) (T D : Int) :
    (strategyBranch forceSplit T D = some Branch.singleFile ↔ (T ≤ D ∧ forceSplit = false)) ∧
    (strategyBranch forceSplit T D = some Branch.splitSchemaData ↔ (T ≤ D ∧ forceSplit = true)) ∧
    (strategyBranch forceSplit T D = some Branch.batched ↔ D < T) ∧
    strategyBranch forceSplit D D ≠ some Branch.batched := by
  cases forceSplit <;>
    simp only [strategyBranch, condition1, condition2, condition3] <;>
    by_cases h : T ≤ D <;> simp [h] <;> omega

/-- C9: for integers of any sign, exactly one of the three conditions of the
chain holds, and the chain selects a branch. -/
theorem strategy_conditions_exclusive (forceSplit : Bool) (T D : Int) :
    ((condition1 forceSplit T D = true ∧ condition2 forceSplit T D = false ∧
        condition3 forceSplit T D = false) ∨
      (condition1 forceSplit T D = false ∧ condition2 forceSplit T D = true ∧
        condition3 forceSplit T D = false) ∨
      (condition1 forceSplit T D = false ∧ condition2 forceSplit T D = false ∧
        condition3 forceSplit T D = true)) ∧
    strategyBranch forceSplit T D ≠ none := by
  cases forceSplit <;>
    simp only [strategyBranch, condition1, condition2, condition3] <;>
    by_cases h : T ≤ D <;> simp [h] <;> omega

/-! ## Total row count -/

theorem wrapInt_add_left (a b : Int) : wrapInt (wrapInt a + b) = wrapInt (a + b) := by
  unfold wrapInt
  omega

theorem wrapInt_of_range (x : Int) (h0 : -(2 ^ 63) ≤ x) (h1 : x ≤ maxInt) : wrapInt x = x := by
  unfold wrapInt maxInt at *
  omega

theorem foldl_wrapInt (tables : List Table) (acc : Int) :
    tables.foldl (fun result table => wrapInt (result + table.RowCount)) (wrapInt acc) =
      wrapInt (acc + rowCountSum tables) := by
  induction tables generalizing acc with
  | nil => simp [rowCountSum]
  | cons t ts ih =>
    simp only [List.foldl_cons, rowCountSum, List.map_cons, List.sum_cons] at *
    rw [wrapInt_add_left, ih (acc + t.RowCount), add_assoc]

/-- In general `getTotalRowCount` is the sum of the row counts reduced to the
range of a 64-bit `int`. -/
theorem getTotalRowCount_eq_wrap (tables : List Table) :
    getTotalRowCount tables = wrapInt (rowCountSum tables) := by
  have h := foldl_wrapInt tables 0
  have h0 : wrapInt 0 = 0 := by decide
  rw [h0, zero_add] at h
  exact h

theorem rowCountSum_nonneg (tables : List Table) (h : ∀ t ∈ tables, 0 ≤ t.RowCount) :
    0 ≤ rowCountSum tables := by
  induction tables with
  | nil => simp [rowCountSum]
  | cons t ts ih =>
    have h1 := h t (List.mem_cons_self _ _)
    have h2 := ih (fun x hx => h x (List.mem_cons_of_mem _ hx))
    simp only [rowCountSum, List.map_cons, List.sum_cons] at *
    omega

/-- C2 as stated fails: two tables of `2^62` rows each (both values fit a Go
`int`) have sum `2^63`, and `getTotalRowCount` returns `-2^63`. -/
theorem getTotalRowCount_sum_counterexample :
    ¬ (∀ tables : List Table, (∀ t ∈ tables, 0 ≤ t.RowCount ∧ t.RowCount ≤ maxInt) →
        getTotalRowCount tables = rowCountSum tables) := by
  intro h
  have h1 := h [NewTable "a".toList (2 ^ 62), NewTable "b".toList (2 ^ 62)] (by decide)
  revert h1
  decide

/-- C2 (amended): for every sequence of tables with non-negative row counts
whose sum does not exceed the largest `int`, `getTotalRowCount` returns the sum
of the `RowCount` fields; for the empty sequence it returns 0. -/
theorem getTotalRowCount_eq_sum (tables : List Table)
    (hnn : ∀ t ∈ tables, 0 ≤ t.RowCount) (hmax : rowCountSum tables ≤ maxInt) :
    getTotalRowCount tables = rowCountSum tables ∧ getTotalRowCount [] = 0 := by
  refine ⟨?_, rfl⟩
  rw [getTotalRowCount_eq_wrap]
  have h0 := rowCountSum_nonneg tables hnn
  exact wrapInt_of_range _ (by omega) hmax

theorem getTotalRowCount_eq_sum_witness :
    getTotalRowCount [NewTable "big".toList 8000000, NewTable "small".toList 1000000] =
        rowCountSum [NewTable "big".toList 8000000, NewTable "small".toList 1000000] ∧
      getTotalRowCount [] = 0 :=
  getTotalRowCount_eq_sum [NewTable "big".toList 8000000, NewTable "small".toList 1000000]
    (by decide) (by decide)

/-- C3: for an empty table list and a non-negative threshold the total is 0,
the chain enters the single-file branch when `forceSplit` is false and the
split branch when it is true, and never the batched branch. -/
theorem empty_table_list_branch (D : Int) (hD : 0 ≤ D) :
    getTotalRowCount [] = 0 ∧
    strategyBranch false (getTotalRowCount []) D = some Branch.singleFile ∧
    strategyBranch true (getTotalRowCount []) D = some Branch.splitSchemaData ∧
    ∀ forceSplit, strategyBranch forceSplit (getTotalRowCount []) D ≠ some Branch.batched := by
  have h0 : getTotalRowCount [] = 0 := rfl
  rw [h0]
  refine ⟨rfl, ?_, ?_, ?_⟩
  · simp [strategyBranch, condition1, hD]
  · simp [strategyBranch, condition1, condition2, hD]
  · intro fs
    cases fs <;> simp [strategyBranch, condition1, condition2, hD]

theorem empty_table_list_branch_witness :
    getTotalRowCount [] = 0 ∧
    strategyBranch false (getTotalRowCount []) 0 = some Branch.singleFile ∧
    strategyBranch true (getTotalRowCount []) 0 = some Branch.splitSchemaData ∧
    ∀ forceSplit, strategyBranch forceSplit (getTotalRowCount []) 0 ≠ some Branch.batched :=
  empty_table_list_branch 0 (by decide)

/-! ## The single-file dump plan -/

/-- C4: for every options value the single-file strategy builds exactly one
argument list, which is `-h<HostName>`, `-u<UserName>`, `-p<Password>`,
`--no-create-db`, `--skip-triggers`, `--no-create-info`, `-r<output path>`,
`<Database>` in this order: eight arguments, the database name last and no
table name. -/
theorem generateSingleFileDataBackup_invocation (timeNow : Time) (options : Options) :
    (generateSingleFileDataBackup timeNow options).invocations =
      [["-h".toList ++ options.HostName,
        "-u".toList ++ options.UserName,
        "-p".toList ++ options.Password,
        "--no-create-db".toList,
        "--skip-triggers".toList,
        "--no-create-info".toList,
        "-r".toList ++ filename timeNow options,
        options.Database]] ∧
    (singleFileArgs timeNow options).length = 8 ∧
    (singleFileArgs timeNow options).getLast? = some options.Database := by
  simp [generateSingleFileDataBackup, singleFileArgs]

/-! ## Logged messages and the password -/

/-- C6 as stated fails: two options values that differ only in `Password`
log different `Info` messages. -/
theorem password_logged_counterexample :
    infoWarningMessages
        (generateSingleFileDataBackup ⟨2024, 1, 2⟩ (mainOptions "/var/backup".toList ⟨2024, 1, 2⟩)) ≠
      infoWarningMessages
        (generateSingleFileDataBackup ⟨2024, 1, 2⟩
          { mainOptions "/var/backup".toList ⟨2024, 1, 2⟩ with Password := "hunter2".toList }) := by
  decide

/-- C6 (amended): `generateSingleFileDataBackup` logs exactly two messages,
both at level `Info`. The first does not depend on the password. The second is
the argument list joined by spaces and carries the argument `-p<Password>`
unredacted, so two options values that differ only in `Password` log the same
messages only when the passwords are equal. -/
theorem password_logged (timeNow : Time) (options : Options) (password : Str) :
    infoWarningMessages (generateSingleFileDataBackup timeNow options) =
      ["Generating single file data backup : ".toList ++ options.Database,
       "mysqldump is being executed with parameters : ".toList ++
         ("-h".toList ++ options.HostName ++ " ".toList ++ ("-u".toList ++ options.UserName) ++
           " ".toList ++ ("-p".toList ++ options.Password) ++
           " --no-create-db --skip-triggers --no-create-info ".toList ++
           ("-r".toList ++ filename timeNow options) ++ " ".toList ++ options.Database)] ∧
    (infoWarningMessages (generateSingleFileDataBackup timeNow options) =
        infoWarningMessages
          (generateSingleFileDataBackup timeNow { options with Password := password }) ↔
      password = options.Password) := by
  have hf : ∀ pw, filename timeNow { options with Password := pw } = filename timeNow options :=
    fun _ => rfl
  have key : ∀ o : Options, infoWarningMessages (generateSingleFileDataBackup timeNow o) =
      ["Generating single file data backup : ".toList ++ o.Database,
       "mysqldump is being executed with parameters : ".toList ++
         ("-h".toList ++ o.HostName ++ " ".toList ++ ("-u".toList ++ o.UserName) ++
           " ".toList ++ ("-p".toList ++ o.Password) ++
           " --no-create-db --skip-triggers --no-create-info ".toList ++
           ("-r".toList ++ filename timeNow o) ++ " ".toList ++ o.Database)] := by
    intro o
    simp [infoWarningMessages, generateSingleFileDataBackup, singleFileArgs, stringsJoin, Info,
      List.intercalate, List.intersperse]
  refine ⟨key options, ?_⟩
  constructor
  · intro h
    rw [key options, key { options with Password := password }, hf] at h
    have h2 := (List.cons.inj (List.cons.inj h).2).1
    have h3 : ("mysqldump is being executed with parameters : ".toList ++
          ("-h".toList ++ options.HostName ++ " ".toList ++ ("-u".toList ++ options.UserName) ++
            " ".toList ++ "-p".toList)) ++
        (options.Password ++ (" --no-create-db --skip-triggers --no-create-info ".toList ++
          ("-r".toList ++ filename timeNow options) ++ " ".toList ++ options.Database)) =
        ("mysqldump is being executed with parameters : ".toList ++
          ("-h".toList ++ options.HostName ++ " ".toList ++ ("-u".toList ++ options.UserName) ++
            " ".toList ++ "-p".toList)) ++
        (password ++ (" --no-create-db --skip-triggers --no-create-info ".toList ++
          ("-r".toList ++ filename timeNow options) ++ " ".toList ++ options.Database)) := by
      simp only [List.append_assoc] at h2 ⊢
      exact h2
    exact (List.append_cancel_right (List.append_cancel_left h3)).symm
  · intro h
    subst h
    rfl

/-! ## The branches without a dump plan -/

/-- C7 (evaluation at the failing input): with `forceSplit` true and one table
of 3,000,000 rows under the threshold 10,000,000, `main` logs the
`Condition:2` message and builds no dump invocation. -/
theorem forceSplit_branch_builds_nothing :
    mainStrategy ⟨2024, 1, 2⟩
        { mainOptions "/var/backup".toList ⟨2024, 1, 2⟩ with ForceSplit := true }
        [NewTable "t1".toList 3000000] =
      { messages :=
          [(("Condition:2 options.ForceSplit (true) && totalRowCount (3000000) <= " ++
              "options.DatabaseRowCountTreshold (10000000)").toList, Info)],
        invocations := [] } := by
  decide

theorem strategyBranch_batched (forceSplit : Bool) (T D : Int) (h : D < T) :
    strategyBranch forceSplit T D = some Branch.batched := by
  have h1 : ¬ T ≤ D := by omega
  cases forceSplit <;> simp [strategyBranch, condition1, condition2, condition3, h1, h]

/-- C8 as stated fails: for the tables `big` (8,000,000 rows) and `small`
(1,000,000 rows), both thresholds 5,000,000 and batch size 1,000,000, the
claim asks for 8 batch tasks for `big`, and the run builds no dump invocation
at all. -/
theorem batched_branch_counterexample :
    ceilDiv 8000000 1000000 = 8 ∧
    ((mainStrategy ⟨2024, 1, 2⟩
        { mainOptions "/var/backup".toList ⟨2024, 1, 2⟩ with
          DatabaseRowCountTreshold := 5000000, TableRowCountTreshold := 5000000 }
        [NewTable "big".toList 8000000, NewTable "small".toList 1000000]).invocations.length : Int)
      ≠ ceilDiv 8000000 1000000 := by
  decide

/-- C8 (amended): for every run whose total row count exceeds the database row
threshold, whatever the tables, the table threshold and the batch size are,
`main` logs the `Condition:3` message and builds no dump invocation. -/
theorem batched_branch_builds_nothing (timeNow : Time) (options : Options)
    (tableList : List Table)
    (h : options.DatabaseRowCountTreshold < getTotalRowCount tableList) :
    mainStrategy timeNow options tableList =
      { messages :=
          [(conditionMessage "3".toList ">".toList options (getTotalRowCount tableList), Info)],
        invocations := [] } := by
  have hb : strategyBranch options.ForceSplit (getTotalRowCount tableList)
      options.DatabaseRowCountTreshold = some Branch.batched :=
    strategyBranch_batched _ _ _ h
  simp only [mainStrategy, hb]

theorem batched_branch_builds_nothing_witness :
    mainStrategy ⟨2024, 1, 2⟩
        { mainOptions "/var/backup".toList ⟨2024, 1, 2⟩ with
          DatabaseRowCountTreshold := 5000000, TableRowCountTreshold := 5000000 }
        [NewTable "big".toList 8000000, NewTable "small".toList 1000000] =
      { messages :=
          [(conditionMessage "3".toList ">".toList
              { mainOptions "/var/backup".toList ⟨2024, 1, 2⟩ with
                DatabaseRowCountTreshold := 5000000, TableRowCountTreshold := 5000000 }
              (getTotalRowCount [NewTable "big".toList 8000000, NewTable "small".toList 1000000]),
            Info)],
        invocations := [] } :=
  batched_branch_builds_nothing _ _ _ (by decide)

/-! ## Decimal rendering -/

theorem digitChar_isDigit (d : Nat) (h : d < 10) : (digitChar d).isDigit = true := by
  interval_cases d <;> decide

/-- The digit loop does not depend on its iteration bound once the bound
exceeds the number. -/
theorem decimalRev_fuel (f1 : Nat) : ∀ (f2 u : Nat), u < f1 → u < f2 →
    decimalRev f1 u = decimalRev f2 u := by
  induction f1 with
  | zero => intro f2 u h; omega
  | succ n ih =>
    intro f2 u h1 h2
    cases f2 with
    | zero => omega
    | succ m =>
      simp only [decimalRev]
      by_cases hu : u < 10
      · simp [hu]
      · simp only [hu, if_false]
        rw [ih m (u / 10) (by omega) (by omega)]

theorem decimal_lt_ten (u : Nat) (h : u < 10) : decimal u = [digitChar u] := by
  simp [decimal, decimalRev, h]

theorem decimal_step (u : Nat) (h : 10 ≤ u) :
    decimal u = decimal (u / 10) ++ [digitChar (u % 10)] := by
  have hu : ¬ u < 10 := by omega
  have h1 : decimalRev (u + 1) u = digitChar (u % 10) :: decimalRev u (u / 10) := by
    simp only [decimalRev, hu, if_false]
  rw [decimal, h1, List.reverse_cons,
    decimalRev_fuel u (u / 10 + 1) (u / 10) (by omega) (by omega), decimal]

theorem decimalRev_digits (fuel : Nat) : ∀ u, ∀ c ∈ decimalRev fuel u, c.isDigit = true := by
  induction fuel with
  | zero => intro u c hc; simp [decimalRev] at hc
  | succ n ih =>
    intro u c hc
    simp only [decimalRev] at hc
    by_cases hu : u < 10
    · simp only [hu, if_true, List.mem_singleton] at hc
      rw [hc]; exact digitChar_isDigit u hu
    · simp only [hu, if_false, List.mem_cons] at hc
      rcases hc with hc | hc
      · rw [hc]; exact digitChar_isDigit _ (Nat.mod_lt _ (by decide))
      · exact ih _ c hc

theorem decimal_digits (u : Nat) : ∀ c ∈ decimal u, c.isDigit = true := by
  intro c hc
  exact decimalRev_digits _ u c (List.mem_reverse.mp hc)

theorem decimalRev_length_le (fuel : Nat) : ∀ (u k : Nat), u < 10 ^ (k + 1) →
    (decimalRev fuel u).length ≤ k + 1 := by
  induction fuel with
  | zero => intro u k _; simp [decimalRev]
  | succ n ih =>
    intro u k hu
    simp only [decimalRev]
    by_cases h10 : u < 10
    · simp [h10]
    · simp only [h10, if_false, List.length_cons]
      cases k with
      | zero => simp at hu; omega
      | succ j =>
        have : u / 10 < 10 ^ (j + 1) := by
          rw [Nat.div_lt_iff_lt_mul (by decide)]
          rw [pow_succ] at hu
          exact hu
        have := ih (u / 10) j this
        omega

theorem decimal_length_le (u k : Nat) (h : u < 10 ^ (k + 1)) : (decimal u).length ≤ k + 1 := by
  simp only [decimal, List.length_reverse]
  exact decimalRev_length_le _ u k h

theorem appendInt_eq_append (b : Str) (x : Int) (width : Nat) :
    appendInt b x width = b ++ appendInt [] x width := by
  unfold appendInt
  by_cases h : x < 0 <;> simp [h]

/-- Rendering of a non-negative integer: zero padding, then the digits. -/
theorem appendInt_nonneg (x : Int) (width : Nat) (h : 0 ≤ x) :
    appendInt [] x width =
      List.replicate (width - (decimal x.natAbs).length) '0' ++ decimal x.natAbs := by
  have hx : ¬ x < 0 := by omega
  simp [appendInt, hx]

theorem appendInt_nonneg_digits (x : Int) (width : Nat) (h : 0 ≤ x) :
    ∀ c ∈ appendInt [] x width, c.isDigit = true := by
  intro c hc
  rw [appendInt_nonneg x width h, List.mem_append] at hc
  rcases hc with hc | hc
  · rw [(List.mem_replicate.mp hc).2]; decide
  · exact decimal_digits _ c hc

theorem appendInt_nonneg_length (x : Int) (width : Nat) (h : 0 ≤ x)
    (hk : (decimal x.natAbs).length ≤ width) : (appendInt [] x width).length = width := by
  rw [appendInt_nonneg x width h]
  simp only [List.length_append, List.length_replicate]
  omega

theorem appendInt_chars (x : Int) (width : Nat) :
    ∀ c ∈ appendInt [] x width, c.isDigit = true ∨ c = '-' := by
  intro c hc
  unfold appendInt at hc
  simp only [List.nil_append, List.mem_append, List.mem_replicate] at hc
  rcases hc with (hc | hc) | hc
  · by_cases hx : x < 0
    · simp [hx] at hc; exact Or.inr hc
    · simp [hx] at hc
  · left; rw [hc.2]; decide
  · left; exact decimal_digits _ c hc

/-! ## Replacement of a one-character string by the empty string -/

theorem replaceLoop_single (c : Char) (fuel : Nat) : ∀ s : Str, s.length ≤ fuel →
    replaceLoop [c] [] fuel s = s.filter (fun x => x != c) := by
  induction fuel with
  | zero =>
    intro s hs
    have : s = [] := List.length_eq_zero.mp (by omega)
    subst this
    simp [replaceLoop]
  | succ n ih =>
    intro s hs
    cases s with
    | nil => simp [replaceLoop]
    | cons x t =>
      have hlen : t.length ≤ n := by simpa using hs
      by_cases hx : c = x
      · subst hx
        simp [replaceLoop, List.isPrefixOf, ih t hlen]
      · have hx2 : x ≠ c := fun h => hx h.symm
        simp [replaceLoop, List.isPrefixOf, ih t hlen, hx, hx2]

theorem stringsReplaceAll_single (s : Str) (c : Char) :
    stringsReplaceAll s [c] [] = s.filter (fun x => x != c) := by
  simp [stringsReplaceAll, replaceLoop_single c s.length s (le_refl _)]

theorem filter_ne_of_digits (s : Str) (c : Char) (hc : c.isDigit = false)
    (hs : ∀ x ∈ s, x.isDigit = true) : s.filter (fun x => x != c) = s := by
  rw [List.filter_eq_self]
  intro x hx
  have := hs x hx
  simp only [bne_iff_ne, ne_eq]
  intro h
  rw [h, hc] at this
  exact Bool.noConfusion this

/-! ## The date stamp -/

theorem formatDate_eq (t : Time) :
    formatDate t =
      appendInt [] t.year 4 ++ ['-'] ++ appendInt [] (t.month : Int) 2 ++ ['-'] ++
        appendInt [] (t.day : Int) 2 := by
  unfold formatDate
  rw [appendInt_eq_append, appendInt_eq_append (appendInt [] t.year 4 ++ ['-'])]

theorem formatDate_chars (t : Time) : ∀ c ∈ formatDate t, c.isDigit = true ∨ c = '-' := by
  intro c hc
  rw [formatDate_eq] at hc
  simp only [List.mem_append, List.mem_singleton] at hc
  rcases hc with (((hc | hc) | hc) | hc) | hc
  · exact appendInt_chars _ _ c hc
  · exact Or.inr hc
  · exact appendInt_chars _ _ c hc
  · exact Or.inr hc
  · exact appendInt_chars _ _ c hc

theorem filter_hyphen_digits (s : Str) (hs : ∀ c ∈ s, c.isDigit = true ∨ c = '-') :
    ∀ c ∈ s.filter (fun x => x != '-'), c.isDigit = true := by
  intro c hc
  rw [List.mem_filter] at hc
  rcases hs c hc.1 with h | h
  · exact h
  · have := hc.2
    simp [h] at this

/-- The local `timestamp` is the `YYYY-MM-DD` rendering without its hyphens;
the replacement of `:` changes nothing. -/
theorem timestamp_eq_filter (options : Options) :
    timestamp options = (formatDate options.ExecutionStartDate).filter (fun x => x != '-') := by
  show stringsReplaceAll (stringsReplaceAll (formatDate options.ExecutionStartDate) ['-'] [])
    [':'] [] = _
  rw [stringsReplaceAll_single, stringsReplaceAll_single]
  exact filter_ne_of_digits _ ':' (by decide)
    (filter_hyphen_digits _ (formatDate_chars options.ExecutionStartDate))

/-- For a year that is not negative the stamp is the year, the month and the
day, zero padded to 4, 2 and 2 digits, one after the other. -/
theorem timestamp_eq_compact (options : Options) (hy : 0 ≤ options.ExecutionStartDate.year) :
    timestamp options =
      appendInt [] options.ExecutionStartDate.year 4 ++
        appendInt [] (options.ExecutionStartDate.month : Int) 2 ++
        appendInt [] (options.ExecutionStartDate.day : Int) 2 := by
  rw [timestamp_eq_filter, formatDate_eq]
  simp only [List.filter_append]
  rw [filter_ne_of_digits _ '-' (by decide) (appendInt_nonneg_digits _ 4 hy),
    filter_ne_of_digits _ '-' (by decide) (appendInt_nonneg_digits _ 2 (Int.ofNat_nonneg _)),
    filter_ne_of_digits _ '-' (by decide) (appendInt_nonneg_digits _ 2 (Int.ofNat_nonneg _))]
  simp

/-- C10: for every execution date the date stamp embedded in the output file
name consists of decimal digits only and is the `YYYY-MM-DD` rendering of the
execution date with the hyphens removed; for a year from 0000 to 9999 (and a
calendar month and day) it is exactly 8 characters long. -/
theorem timestamp_digits_only (options : Options) :
    (∀ c ∈ timestamp options, c.isDigit = true) ∧
    timestamp options = (formatDate options.ExecutionStartDate).filter (fun x => x != '-') ∧
    (0 ≤ options.ExecutionStartDate.year → options.ExecutionStartDate.year ≤ 9999 →
      options.ExecutionStartDate.valid → (timestamp options).length = 8) := by
  refine ⟨?_, timestamp_eq_filter options, ?_⟩
  · rw [timestamp_eq_filter]
    exact filter_hyphen_digits _ (formatDate_chars _)
  · intro hy0 hy1 hv
    obtain ⟨_, hm, _, hd⟩ := hv
    rw [timestamp_eq_compact options hy0]
    have h4 : (decimal options.ExecutionStartDate.year.natAbs).length ≤ 4 :=
      decimal_length_le _ 3 (by omega)
    have h2m : (decimal (options.ExecutionStartDate.month : Int).natAbs).length ≤ 2 :=
      decimal_length_le _ 1 (by simp only [Int.natAbs_ofNat]; omega)
    have h2d : (decimal (options.ExecutionStartDate.day : Int).natAbs).length ≤ 2 :=
      decimal_length_le _ 1 (by simp only [Int.natAbs_ofNat]; omega)
    rw [List.length_append, List.length_append, appendInt_nonneg_length _ 4 hy0 h4,
      appendInt_nonneg_length _ 2 (Int.ofNat_nonneg _) h2m,
      appendInt_nonneg_length _ 2 (Int.ofNat_nonneg _) h2d]

theorem timestamp_digits_only_witness :
    (∀ c ∈ timestamp (mainOptions "/var/backup".toList ⟨2024, 1, 2⟩), c.isDigit = true) ∧
    timestamp (mainOptions "/var/backup".toList ⟨2024, 1, 2⟩) = "20240102".toList ∧
    (timestamp (mainOptions "/var/backup".toList ⟨2024, 1, 2⟩)).length = 8 :=
  ⟨(timestamp_digits_only (mainOptions "/var/backup".toList ⟨2024, 1, 2⟩)).1,
    by decide,
    (timestamp_digits_only (mainOptions "/var/backup".toList ⟨2024, 1, 2⟩)).2.2
      (by decide) (by decide) (by decide)⟩

/-! ## The loop of `path.Clean` -/

theorem length_dropWhile_le (p : Char → Bool) (l : Str) : (l.dropWhile p).length ≤ l.length := by
  induction l with
  | nil => simp
  | cons x t ih =>
    simp only [List.dropWhile_cons]
    split
    · simp only [List.length_cons]; omega
    · exact le_refl _

/-- Every iteration reads at least one character, so any iteration bound not
below the length of the unread input gives the same result. -/
theorem cleanLoop_fuel (rooted : Bool) (f1 : Nat) : ∀ (f2 : Nat) (rest out : Str) (dotdot : Nat),
    rest.length ≤ f1 → rest.length ≤ f2 →
    cleanLoop rooted f1 rest out dotdot = cleanLoop rooted f2 rest out dotdot := by
  induction f1 with
  | zero =>
    intro f2 rest out dotdot h1 _
    have : rest = [] := List.length_eq_zero.mp (by omega)
    subst this
    cases f2 <;> simp [cleanLoop]
  | succ n ih =>
    intro f2 rest out dotdot h1 h2
    cases rest with
    | nil => cases f2 <;> simp [cleanLoop]
    | cons c t =>
      cases f2 with
      | zero => simp at h2
      | succ m =>
        have ht1 : t.length ≤ n := by simpa using h1
        have ht2 : t.length ≤ m := by simpa using h2
        have htt1 : t.tail.length ≤ n := by simp only [List.length_tail]; omega
        have htt2 : t.tail.length ≤ m := by simp only [List.length_tail]; omega
        simp only [cleanLoop]
        split
        · exact ih m t out dotdot ht1 ht2
        · rename_i hc
          split
          · exact ih m t out dotdot ht1 ht2
          · split
            · split
              · exact ih m _ _ _ htt1 htt2
              · split
                · exact ih m _ _ _ htt1 htt2
                · exact ih m _ _ _ htt1 htt2
            · have hd : ((c :: t).dropWhile (fun x => x != '/')).length ≤ t.length := by
                have hne : (c != '/') = true := by simpa using hc
                rw [List.dropWhile_cons, if_pos hne]
                exact length_dropWhile_le _ t
              exact ih m _ _ _ (by omega) (by omega)

theorem cleanRun_nil (rooted : Bool) (out : Str) (dotdot : Nat) :
    cleanRun rooted [] out dotdot = out := by
  simp [cleanRun, cleanLoop]

/-- One iteration of the loop of `path.Clean`. -/
theorem cleanRun_cons (rooted : Bool) (c : Char) (t out : Str) (dotdot : Nat) :
    cleanRun rooted (c :: t) out dotdot =
      if c = '/' then cleanRun rooted t out dotdot
      else if c = '.' ∧ (t = [] ∨ t.head? = some '/') then cleanRun rooted t out dotdot
      else if c = '.' ∧ t.head? = some '.' ∧ (t.tail = [] ∨ t.tail.head? = some '/') then
        if dotdot < out.length then
          cleanRun rooted t.tail (out.take (backtrackLoop out dotdot (out.length - 1))) dotdot
        else if !rooted then
          cleanRun rooted t.tail ((if 0 < out.length then out ++ ['/'] else out) ++ ['.', '.'])
            ((if 0 < out.length then out ++ ['/'] else out) ++ ['.', '.']).length
        else cleanRun rooted t.tail out dotdot
      else
        cleanRun rooted ((c :: t).dropWhile (fun x => x != '/'))
          ((if (rooted && out.length != 1) || (!rooted && out.length != 0) then out ++ ['/']
              else out) ++ (c :: t).takeWhile (fun x => x != '/')) dotdot := by
  have htt : t.tail.length ≤ t.length := by simp only [List.length_tail]; omega
  simp only [cleanRun, List.length_cons, cleanLoop]
  split
  · rfl
  · rename_i hc
    split
    · rfl
    · split
      · split
        · exact cleanLoop_fuel _ _ _ _ _ _ htt (le_refl _)
        · split
          · exact cleanLoop_fuel _ _ _ _ _ _ htt (le_refl _)
          · exact cleanLoop_fuel _ _ _ _ _ _ htt (le_refl _)
      · have hd : ((c :: t).dropWhile (fun x => x != '/')).length ≤ t.length := by
          have hne : (c != '/') = true := by simpa using hc
          rw [List.dropWhile_cons, if_pos hne]
          exact length_dropWhile_le _ t
        exact cleanLoop_fuel _ _ _ _ _ _ hd (le_refl _)

/-- The function `path.Clean` in terms of the completed loop. -/
theorem Clean_eq (path : Str) (h : path ≠ []) :
    Clean path =
      if path.head? = some '/' then
        (if (cleanRun true path.tail ['/'] 1).length = 0 then ['.']
          else cleanRun true path.tail ['/'] 1)
      else
        (if (cleanRun false path [] 0).length = 0 then ['.'] else cleanRun false path [] 0) := by
  cases path with
  | nil => exact absurd rfl h
  | cons c t =>
    by_cases hc : c = '/'
    · subst hc
      have : cleanLoop true (t.length + 1) t ['/'] 1 = cleanRun true t ['/'] 1 :=
        cleanLoop_fuel _ _ _ _ _ _ (by omega) (le_refl _)
      simp [Clean, this]
    · have hb : (c == '/') = false := by simpa using hc
      simp [Clean, hc, hb, cleanRun]

theorem takeWhile_append_slash (a b : Str) :
    (a ++ '/' :: b).takeWhile (fun x => x != '/') = a.takeWhile (fun x => x != '/') := by
  induction a with
  | nil => simp
  | cons x t ih =>
    simp only [List.cons_append, List.takeWhile_cons, ih]

theorem dropWhile_append_slash (a b : Str) :
    (a ++ '/' :: b).dropWhile (fun x => x != '/') =
      a.dropWhile (fun x => x != '/') ++ '/' :: b := by
  induction a with
  | nil => simp
  | cons x t ih =>
    simp only [List.cons_append, List.dropWhile_cons, ih]
    split <;> simp

theorem boundary_append (t b : Str) :
    ((t ++ '/' :: b) = [] ∨ (t ++ '/' :: b).head? = some '/') ↔
      (t = [] ∨ t.head? = some '/') := by
  cases t <;> simp

theorem head_dot_append (t b : Str) :
    (t ++ '/' :: b).head? = some '.' ↔ t.head? = some '.' := by
  cases t <;> simp

theorem tail_append_slash (t b : Str) (h : t ≠ []) :
    (t ++ '/' :: b).tail = t.tail ++ '/' :: b := by
  cases t with
  | nil => exact absurd rfl h
  | cons x u => simp

/-- The loop of `path.Clean` can be cut at a slash: the characters before the
slash are processed as if the path ended there. -/
theorem cleanRun_append_slash (rooted : Bool) (n : Nat) : ∀ (a b out : Str) (dotdot : Nat),
    a.length ≤ n →
    ∃ dd, cleanRun rooted (a ++ '/' :: b) out dotdot =
      cleanRun rooted ('/' :: b) (cleanRun rooted a out dotdot) dd := by
  induction n with
  | zero =>
    intro a b out dotdot h
    have : a = [] := List.length_eq_zero.mp (by omega)
    subst this
    exact ⟨dotdot, by simp [cleanRun_nil]⟩
  | succ n ih =>
    intro a b out dotdot h
    cases a with
    | nil => exact ⟨dotdot, by simp [cleanRun_nil]⟩
    | cons c t =>
      have ht : t.length ≤ n := by simpa using h
      have htt : t.tail.length ≤ n := by simp only [List.length_tail]; omega
      rw [List.cons_append, cleanRun_cons rooted c (t ++ '/' :: b), cleanRun_cons rooted c t]
      by_cases hc : c = '/'
      · rw [if_pos hc, if_pos hc]
        exact ih t b out dotdot ht
      · rw [if_neg hc, if_neg hc]
        have hne : (c != '/') = true := by simpa using hc
        by_cases h2 : c = '.' ∧ (t = [] ∨ t.head? = some '/')
        · have h2a : c = '.' ∧ (t ++ '/' :: b = [] ∨ (t ++ '/' :: b).head? = some '/') :=
            ⟨h2.1, (boundary_append t b).2 h2.2⟩
          rw [if_pos h2a, if_pos h2]
          exact ih t b out dotdot ht
        · have h2a : ¬ (c = '.' ∧ (t ++ '/' :: b = [] ∨ (t ++ '/' :: b).head? = some '/')) :=
            fun hh => h2 ⟨hh.1, (boundary_append t b).1 hh.2⟩
          rw [if_neg h2a, if_neg h2]
          by_cases h3 : c = '.' ∧ t.head? = some '.' ∧ (t.tail = [] ∨ t.tail.head? = some '/')
          · have htne : t ≠ [] := by
              intro h0; rw [h0] at h3; simp at h3
            have h3a : c = '.' ∧ (t ++ '/' :: b).head? = some '.' ∧
                ((t ++ '/' :: b).tail = [] ∨ (t ++ '/' :: b).tail.head? = some '/') := by
              refine ⟨h3.1, (head_dot_append t b).2 h3.2.1, ?_⟩
              rw [tail_append_slash t b htne]
              exact (boundary_append _ _).2 h3.2.2
            rw [if_pos h3a, if_pos h3, tail_append_slash t b htne]
            split
            · exact ih _ b _ _ htt
            · split
              · exact ih _ b _ _ htt
              · exact ih _ b _ _ htt
          · have h3a : ¬ (c = '.' ∧ (t ++ '/' :: b).head? = some '.' ∧
                ((t ++ '/' :: b).tail = [] ∨ (t ++ '/' :: b).tail.head? = some '/')) := by
              intro hh
              have hd := (head_dot_append t b).1 hh.2.1
              have htne : t ≠ [] := by
                intro h0; rw [h0] at hd; simp at hd
              have h4 := hh.2.2
              rw [tail_append_slash t b htne] at h4
              exact h3 ⟨hh.1, hd, (boundary_append _ _).1 h4⟩
            rw [if_neg h3a, if_neg h3, ← List.cons_append, takeWhile_append_slash,
              dropWhile_append_slash]
            refine ih _ b _ _ ?_
            rw [List.dropWhile_cons, if_pos hne]
            exact le_trans (length_dropWhile_le _ t) ht

theorem takeWhile_no_slash (e : Str) (h : '/' ∉ e) : e.takeWhile (fun x => x != '/') = e := by
  induction e with
  | nil => rfl
  | cons x t ih =>
    have hx : x ≠ '/' := fun hh => h (by rw [hh]; exact List.mem_cons_self _ _)
    have ht : '/' ∉ t := fun hh => h (List.mem_cons_of_mem _ hh)
    simp [List.takeWhile_cons, hx, ih ht]

theorem dropWhile_no_slash (e : Str) (h : '/' ∉ e) : e.dropWhile (fun x => x != '/') = [] := by
  induction e with
  | nil => rfl
  | cons x t ih =>
    have hx : x ≠ '/' := fun hh => h (by rw [hh]; exact List.mem_cons_self _ _)
    have ht : '/' ∉ t := fun hh => h (List.mem_cons_of_mem _ hh)
    simp [List.dropWhile_cons, hx, ih ht]

theorem takeWhile_elem (e rest : Str) (h : '/' ∉ e) (hrest : rest = [] ∨ rest.head? = some '/') :
    (e ++ rest).takeWhile (fun x => x != '/') = e := by
  cases rest with
  | nil => simpa using takeWhile_no_slash e h
  | cons x b =>
    have hx : x = '/' := by simpa using hrest
    subst hx
    rw [takeWhile_append_slash, takeWhile_no_slash e h]

theorem dropWhile_elem (e rest : Str) (h : '/' ∉ e) (hrest : rest = [] ∨ rest.head? = some '/') :
    (e ++ rest).dropWhile (fun x => x != '/') = rest := by
  cases rest with
  | nil => simpa using dropWhile_no_slash e h
  | cons x b =>
    have hx : x = '/' := by simpa using hrest
    subst hx
    rw [dropWhile_append_slash, dropWhile_no_slash e h, List.nil_append]

/-- A slash followed by a copied element appends a slash and the element to
the output, when the output is neither empty nor the root slash alone. -/
theorem cleanRun_slash_elem (rooted : Bool) (e rest out : Str) (dotdot : Nat) (he : isElem e)
    (hrest : rest = [] ∨ rest.head? = some '/')
    (hout : ((rooted && out.length != 1) || (!rooted && out.length != 0)) = true) :
    cleanRun rooted ('/' :: (e ++ rest)) out dotdot =
      cleanRun rooted rest (out ++ '/' :: e) dotdot := by
  obtain ⟨hne, hns, hd1, hd2⟩ := he
  rw [cleanRun_cons, if_pos rfl]
  cases e with
  | nil => exact absurd rfl hne
  | cons c t =>
    have hc : c ≠ '/' := fun hh => hns (by rw [hh]; exact List.mem_cons_self _ _)
    have hts : '/' ∉ t := fun hh => hns (List.mem_cons_of_mem _ hh)
    have h2 : ¬ (c = '.' ∧ (t ++ rest = [] ∨ (t ++ rest).head? = some '/')) := by
      rintro ⟨hcd, hb⟩
      cases t with
      | nil => exact hd1 (by rw [hcd])
      | cons x u =>
        have hx : x = '/' := by simpa using hb
        exact hts (by rw [hx]; exact List.mem_cons_self _ _)
    have h3 : ¬ (c = '.' ∧ (t ++ rest).head? = some '.' ∧
        ((t ++ rest).tail = [] ∨ (t ++ rest).tail.head? = some '/')) := by
      rintro ⟨hcd, hh, hb⟩
      cases t with
      | nil =>
        rcases hrest with hr | hr
        · rw [hr] at hh; simp at hh
        · rw [List.nil_append, hr] at hh; simp at hh
      | cons x u =>
        have hx : x = '.' := by simpa using hh
        cases u with
        | nil => exact hd2 (by rw [hcd, hx])
        | cons y v =>
          have hy : y = '/' := by simpa using hb
          exact hts (by rw [hy]; simp)
    rw [List.cons_append, cleanRun_cons, if_neg hc, if_neg h2, if_neg h3, if_pos hout,
      ← List.cons_append, takeWhile_elem _ rest hns hrest, dropWhile_elem _ rest hns hrest]
    simp

theorem slash_needed_append (rooted : Bool) (out e : Str) (he : e ≠ []) :
    ((rooted && (out ++ '/' :: e).length != 1) || (!rooted && (out ++ '/' :: e).length != 0))
      = true := by
  have h1 : 1 ≤ e.length := by
    cases e with
    | nil => exact absurd rfl he
    | cons x t => simp
  have h2 : (out ++ '/' :: e).length ≠ 1 := by
    simp only [List.length_append, List.length_cons]; omega
  have h3 : (out ++ '/' :: e).length ≠ 0 := by
    simp only [List.length_append, List.length_cons]; omega
  cases rooted
  · simp
  · simp; omega

theorem cleanRun_four_elems (rooted : Bool) (out e1 e2 e3 e4 : Str) (dotdot : Nat)
    (hout : ((rooted && out.length != 1) || (!rooted && out.length != 0)) = true)
    (h1 : isElem e1) (h2 : isElem e2) (h3 : isElem e3) (h4 : isElem e4) :
    cleanRun rooted ('/' :: (e1 ++ '/' :: (e2 ++ '/' :: (e3 ++ '/' :: e4)))) out dotdot =
      out ++ '/' :: e1 ++ '/' :: e2 ++ '/' :: e3 ++ '/' :: e4 := by
  rw [cleanRun_slash_elem rooted e1 ('/' :: (e2 ++ '/' :: (e3 ++ '/' :: e4))) out dotdot h1
      (Or.inr rfl) hout,
    cleanRun_slash_elem rooted e2 ('/' :: (e3 ++ '/' :: e4)) _ dotdot h2 (Or.inr rfl)
      (slash_needed_append _ _ _ h1.1),
    cleanRun_slash_elem rooted e3 ('/' :: e4) _ dotdot h3 (Or.inr rfl)
      (slash_needed_append _ _ _ h2.1)]
  have h := cleanRun_slash_elem rooted e4 [] (out ++ '/' :: e1 ++ '/' :: e2 ++ '/' :: e3) dotdot h4
    (Or.inl rfl) (slash_needed_append _ _ _ h3.1)
  rw [List.append_nil] at h
  rw [h, cleanRun_nil]

theorem joinBuf_five (root e1 e2 e3 e4 : Str) (h : root ≠ []) :
    joinBuf [root, e1, e2, e3, e4] =
      root ++ '/' :: (e1 ++ '/' :: (e2 ++ '/' :: (e3 ++ '/' :: e4))) := by
  have h0 : 0 < root.length := List.length_pos.mpr h
  simp [joinBuf, h, h0]

/-- The result of `path.Join` on a clean directory other than `.` and `/` with four copied
elements is the directory and the elements separated by single slashes. -/
theorem Join_clean_root (root e1 e2 e3 e4 : Str) (hclean : Clean root = root)
    (hdot : root ≠ ['.']) (hslash : root ≠ ['/'])
    (h1 : isElem e1) (h2 : isElem e2) (h3 : isElem e3) (h4 : isElem e4) :
    Join [root, e1, e2, e3, e4] =
      root ++ '/' :: e1 ++ '/' :: e2 ++ '/' :: e3 ++ '/' :: e4 := by
  have hne : root ≠ [] := by
    intro h0
    rw [h0] at hclean
    exact absurd hclean (by decide)
  have hsum : ¬ (([root, e1, e2, e3, e4].map List.length).sum = 0) := by
    have h0 : 0 < root.length := List.length_pos.mpr hne
    simp only [List.map_cons, List.map_nil, List.sum_cons, List.sum_nil]
    omega
  have hres : (root ++ '/' :: e1 ++ '/' :: e2 ++ '/' :: e3 ++ '/' :: e4).length ≠ 0 := by
    have h0 : 0 < root.length := List.length_pos.mpr hne
    simp only [List.length_append, List.length_cons]
    omega
  rw [Join, if_neg hsum, joinBuf_five root e1 e2 e3 e4 hne]
  rw [Clean_eq root hne] at hclean
  cases root with
  | nil => exact absurd rfl hne
  | cons c t =>
    rw [Clean_eq _ (by simp)]
    by_cases hc : c = '/'
    · subst hc
      have ht : t ≠ [] := fun h0 => hslash (by rw [h0])
      simp only [List.head?_cons, if_true, List.tail_cons, List.cons_append] at hclean ⊢
      obtain ⟨dd, hdd⟩ := cleanRun_append_slash true t.length t
        (e1 ++ '/' :: (e2 ++ '/' :: (e3 ++ '/' :: e4))) ['/'] 1 (le_refl _)
      have ho : cleanRun true t ['/'] 1 = '/' :: t := by
        by_cases hl : (cleanRun true t ['/'] 1).length = 0
        · rw [if_pos hl] at hclean
          exact absurd hclean.symm hdot
        · rw [if_neg hl] at hclean
          exact hclean
      have hout : ((true && ('/' :: t).length != 1) || (!true && ('/' :: t).length != 0))
          = true := by
        have : t.length ≠ 0 := fun h0 => ht (List.length_eq_zero.mp h0)
        simp [this]
      rw [hdd, ho, cleanRun_four_elems true ('/' :: t) e1 e2 e3 e4 dd hout h1 h2 h3 h4,
        if_neg hres]
      rfl
    · have hh : ¬ ((c :: t).head? = some '/') := by simpa using hc
      have hh2 : ¬ ((c :: t ++ '/' :: (e1 ++ '/' :: (e2 ++ '/' :: (e3 ++ '/' :: e4)))).head?
          = some '/') := by simpa using hc
      rw [if_neg hh] at hclean
      rw [if_neg hh2]
      obtain ⟨dd, hdd⟩ := cleanRun_append_slash false (c :: t).length (c :: t)
        (e1 ++ '/' :: (e2 ++ '/' :: (e3 ++ '/' :: e4))) [] 0 (le_refl _)
      have ho : cleanRun false (c :: t) [] 0 = c :: t := by
        by_cases hl : (cleanRun false (c :: t) [] 0).length = 0
        · rw [if_pos hl] at hclean
          exact absurd hclean.symm hdot
        · rw [if_neg hl] at hclean
          exact hclean
      have hout : ((false && (c :: t).length != 1) || (!false && (c :: t).length != 0))
          = true := by simp
      rw [hdd, ho, cleanRun_four_elems false (c :: t) e1 e2 e3 e4 dd hout h1 h2 h3 h4,
        if_neg hres]

/-! ## The output path -/

theorem isElem_of_mem (e : Str) (x : Char) (hx : x ∈ e) (hxd : x ≠ '.') (hns : '/' ∉ e) :
    isElem e := by
  refine ⟨?_, hns, ?_, ?_⟩
  · intro h; rw [h] at hx; simp at hx
  · intro h; rw [h] at hx; simp at hx; exact hxd hx
  · intro h; rw [h] at hx; simp at hx; exact hxd hx

theorem hyphen_mem_formatDate (t : Time) : '-' ∈ formatDate t := by
  rw [formatDate_eq]
  simp

theorem slash_not_mem_formatDate (t : Time) : '/' ∉ formatDate t := by
  intro h
  rcases formatDate_chars t '/' h with h1 | h1
  · exact absurd h1 (by decide)
  · exact absurd h1 (by decide)

theorem slash_not_mem_timestamp (options : Options) : '/' ∉ timestamp options := by
  intro h
  have h1 : ∀ c ∈ timestamp options, c.isDigit = true := by
    rw [timestamp_eq_filter]
    exact filter_hyphen_digits _ (formatDate_chars _)
  exact absurd (h1 '/' h) (by decide)

theorem formatCompact_eq (t : Time) :
    formatCompact t =
      appendInt [] t.year 4 ++ appendInt [] (t.month : Int) 2 ++ appendInt [] (t.day : Int) 2 := by
  unfold formatCompact
  rw [appendInt_eq_append, appendInt_eq_append (appendInt [] t.year 4)]

/-- C5 as stated fails: with the execution date 2024-01-02 in the options and
the process start time on 2024-01-03 the day-level directory of the output path
is `2024-01-03`, and the same options give another path when the process start
time is on 2024-01-04. -/
theorem filename_timeNow_counterexample :
    filename ⟨2024, 1, 3⟩ (mainOptions "/var/backup".toList ⟨2024, 1, 2⟩) =
      ("/var/backup/daily/2024-01-03/database-name-2024-01-02/" ++
        "database-name_DATA_20240102.sql").toList ∧
    filename ⟨2024, 1, 3⟩ (mainOptions "/var/backup".toList ⟨2024, 1, 2⟩) ≠
      executionDatePath (mainOptions "/var/backup".toList ⟨2024, 1, 2⟩) ∧
    filename ⟨2024, 1, 3⟩ (mainOptions "/var/backup".toList ⟨2024, 1, 2⟩) ≠
      filename ⟨2024, 1, 4⟩ (mainOptions "/var/backup".toList ⟨2024, 1, 2⟩) := by
  decide

/-- C5 (amended): for every process start time `timeNow` and every options
value whose output directory is a clean path other than `.` and `/` and whose
database name has no slash, the output path is
`<outputRoot>/daily/<N>/<database>-<D>/<database>_DATA_<C>.sql`, where `N` is
`timeNow` as `YYYY-MM-DD`, `D` the execution date of the options as
`YYYY-MM-DD` and `C` is `D` without its hyphens. When `timeNow` is the
execution date and the year is not negative this is the path with both date
components taken from the execution date and `C` the date as `YYYYMMDD`. -/
theorem filename_eq (timeNow : Time) (options : Options)
    (hclean : Clean options.OutputDirectory = options.OutputDirectory)
    (hdot : options.OutputDirectory ≠ ".".toList) (hslash : options.OutputDirectory ≠ "/".toList)
    (hdb : '/' ∉ options.Database) :
    filename timeNow options =
      options.OutputDirectory ++ "/daily/".toList ++ formatDate timeNow ++ "/".toList ++
        options.Database ++ "-".toList ++ formatDate options.ExecutionStartDate ++ "/".toList ++
        options.Database ++ "_DATA_".toList ++
        (formatDate options.ExecutionStartDate).filter (fun x => x != '-') ++ ".sql".toList ∧
    (timeNow = options.ExecutionStartDate → 0 ≤ options.ExecutionStartDate.year →
      filename timeNow options = executionDatePath options) := by
  have h1 : isElem "daily".toList := by
    refine ⟨by decide, by decide, by decide, by decide⟩
  have h2 : isElem (formatDate timeNow) :=
    isElem_of_mem _ '-' (hyphen_mem_formatDate _) (by decide) (slash_not_mem_formatDate _)
  have h3 : isElem (options.Database ++ "-".toList ++ formatDate options.ExecutionStartDate) := by
    refine isElem_of_mem _ '-' (by simp) (by decide) ?_
    intro h
    simp only [List.mem_append] at h
    rcases h with (h | h) | h
    · exact hdb h
    · exact absurd h (by decide)
    · exact slash_not_mem_formatDate _ h
  have h4 : isElem (options.Database ++ "_".toList ++ "DATA".toList ++ "_".toList ++
      timestamp options ++ ".sql".toList) := by
    refine isElem_of_mem _ '_' (by simp) (by decide) ?_
    intro h
    simp only [List.mem_append] at h
    rcases h with ((((h | h) | h) | h) | h) | h
    · exact hdb h
    · exact absurd h (by decide)
    · exact absurd h (by decide)
    · exact absurd h (by decide)
    · exact slash_not_mem_timestamp _ h
    · exact absurd h (by decide)
  have key : filename timeNow options =
      options.OutputDirectory ++ "/daily/".toList ++ formatDate timeNow ++ "/".toList ++
        options.Database ++ "-".toList ++ formatDate options.ExecutionStartDate ++ "/".toList ++
        options.Database ++ "_DATA_".toList ++
        (formatDate options.ExecutionStartDate).filter (fun x => x != '-') ++ ".sql".toList := by
    rw [filename, Join_clean_root _ _ _ _ _ hclean hdot hslash h1 h2 h3 h4, timestamp_eq_filter]
    simp
  refine ⟨key, ?_⟩
  intro ht hy
  rw [key, ht, executionDatePath, ← timestamp_eq_filter, timestamp_eq_compact options hy,
    formatCompact_eq]

theorem filename_eq_witness :
    filename ⟨2024, 1, 3⟩ (mainOptions "/var/backup".toList ⟨2024, 1, 2⟩) =
      "/var/backup".toList ++ "/daily/".toList ++ formatDate ⟨2024, 1, 3⟩ ++ "/".toList ++
        "database-name".toList ++ "-".toList ++ formatDate ⟨2024, 1, 2⟩ ++ "/".toList ++
        "database-name".toList ++ "_DATA_".toList ++
        (formatDate ⟨2024, 1, 2⟩).filter (fun x => x != '-') ++ ".sql".toList :=
  (filename_eq ⟨2024, 1, 3⟩ (mainOptions "/var/backup".toList ⟨2024, 1, 2⟩)
    (by decide) (by decide) (by decide) (by decide)).1

end GoMysqlBackup
